import Mathlib

/-!
Verification of `chat-stats.py`, a script computing descriptive statistics
over a chat transcript.  The Python source is embedded shallowly: strings are
`List Char`, `re.sub` calls are translated to recursive functions with the
same matching semantics (ASCII character classes), Counters are represented by
the multiset (list) of observed items, numpy row indexing is modelled with
Python's negative-index semantics, and fallible operations return `Except`.
-/

/-- Python's `\w` character class, restricted to ASCII as it applies to the
transcripts at hand: letters, digits and underscore. -/
def isWordChar (c : Char) : Bool := c.isAlphanum || c == '_'

/-- Python's `\s` class / `str.split()` / `str.strip()` whitespace (ASCII). -/
def isSpaceChar (c : Char) : Bool := c.isWhitespace

/-- `str.strip()`: drop whitespace from both ends. -/
def pyStrip (l : List Char) : List Char :=
  (((l.dropWhile fun c => c.isWhitespace).reverse).dropWhile fun c => c.isWhitespace).reverse

/-- `str.split()` with no separator: split on runs of whitespace, dropping
empty pieces. -/
def pythonSplit (s : List Char) : List (List Char) :=
  match s with
  | [] => []
  | c :: cs =>
    if c.isWhitespace then pythonSplit cs
    else (c :: cs.takeWhile fun d => !d.isWhitespace) ::
      pythonSplit (cs.dropWhile fun d => !d.isWhitespace)
termination_by s.length
decreasing_by
  · simp
  · have := (List.dropWhile_sublist (l := cs) (fun d => !d.isWhitespace)).length_le
    simp
    omega

/-- `re.sub("http[^\n\s]*", "", message)`: each leftmost occurrence of `http`
together with the maximal following run of non-whitespace characters is
deleted, and scanning resumes after the deleted run.  When the pattern matches
at the head, the matched run starts with `'h'` (non-whitespace), so dropping
the maximal non-whitespace run of the tail deletes exactly the match. -/
def removeHttp (s : List Char) : List Char :=
  match s with
  | [] => []
  | c :: cs =>
    if ("http".toList).isPrefixOf (c :: cs) then
      removeHttp (cs.dropWhile fun d => !d.isWhitespace)
    else
      c :: removeHttp cs
termination_by s.length
decreasing_by
  · have := (List.dropWhile_sublist (l := cs) (fun d => !d.isWhitespace)).length_le
    simp
    omega
  · simp

/-- `re.sub("-+|/+|\.{2}", " ", message)`: a maximal run of hyphens, a maximal
run of slashes, or exactly two consecutive dots, each becomes one space. -/
def subSeps (s : List Char) : List Char :=
  match s with
  | [] => []
  | c :: cs =>
    if c == '-' then ' ' :: subSeps (cs.dropWhile fun d => d == '-')
    else if c == '/' then ' ' :: subSeps (cs.dropWhile fun d => d == '/')
    else if c == '.' && cs.head? == some '.' then ' ' :: subSeps cs.tail
    else c :: subSeps cs
termination_by s.length
decreasing_by
  · have := (List.dropWhile_sublist (l := cs) (fun d => d == '-')).length_le
    simp
    omega
  · have := (List.dropWhile_sublist (l := cs) (fun d => d == '/')).length_le
    simp
    omega
  · simp [List.length_tail]
    omega
  · simp

/-- `process_message`: strip URLs, replace separator runs by spaces, split on
whitespace. -/
def process_message (s : List Char) : List (List Char) :=
  pythonSplit (subSeps (removeHttp s))

/-- The `contracted_forms` list of `process_word`. -/
def contracted_forms : List (List Char) :=
  ["can't".toList, "could've".toList, "couldn't".toList, "didn't".toList,
   "doesn't".toList, "don't".toList, "hadn't".toList, "hasn't".toList,
   "haven't".toList, "he'd".toList, "he'll".toList, "here's".toList,
   "he's".toList, "i'd".toList, "i'll".toList, "i'm".toList, "i've".toList,
   "isn't".toList, "it'd".toList, "it'll".toList, "it's".toList,
   "let's".toList, "she'd".toList, "she'll".toList, "she's".toList,
   "that'd".toList, "that'll".toList, "that's".toList, "there's".toList,
   "there'll".toList, "they're".toList, "this'd".toList, "this'll".toList,
   "wasn't".toList, "we'd".toList, "we're".toList, "we've".toList,
   "what'd".toList, "what'll".toList, "what's".toList, "won't".toList,
   "would've".toList, "wouldn't".toList, "you'd".toList, "you'll".toList,
   "you're".toList, "you've".toList]

/-- `process_word`: strip surrounding whitespace; spare contracted forms;
otherwise delete every non-word character (`re.sub("\W*", "", word)`). -/
def process_word (w : List Char) : List Char :=
  let w' := pyStrip w
  if w' ∈ contracted_forms then w' else w'.filter isWordChar

/-- The guard of the comprehension
`[process_word(word) for word in message if process_word(word) is not None]`:
`process_word` always returns a string, never `None`, so the guard never
drops anything. -/
def keepWord (w : List Char) : Bool := (some (process_word w)).isSome

/-- The main-scan step `message = [process_word(word) for word in message if
process_word(word) is not None]`. -/
def processWords (ws : List (List Char)) : List (List Char) :=
  (ws.filter keepWord).map process_word

/-- The full tokenizer: `process_message` followed by per-word processing. -/
def tokenize (s : List Char) : List (List Char) :=
  processWords (process_message s)

/-!  Trigram extraction.  `gettrigrams` mutates its argument in place: two
`append('EOS')` calls and two `insert(0, 'BOS')` calls pad the message, and
the keys are all length-3 windows of the padded list (indices `i` with
`i + 2 <= len - 1`).  The mutation is modelled by returning the final state of
the list alongside the keys. -/

/-- All length-3 windows of a list, joined with single spaces. -/
def tri3 (l : List String) : List String :=
  match l with
  | a :: b :: c :: rest => (a ++ " " ++ b ++ " " ++ c) :: tri3 (b :: c :: rest)
  | _ => []

/-- `gettrigrams(message)`: first component is the returned list of trigram
keys, second component is the state of `message` after the call. -/
def gettrigrams (message : List String) : List String × List String :=
  let padded := "BOS" :: "BOS" :: (message ++ ["EOS", "EOS"])
  (tri3 padded, padded)

/-- All length-3 windows of a list, as triples (the same windows `tri3`
joins into key strings). -/
def tri3t (l : List String) : List (String × String × String) :=
  match l with
  | a :: b :: c :: rest => (a, b, c) :: tri3t (b :: c :: rest)
  | _ => []

/-- The trigram windows of one message after sentinel padding. -/
def trigram_triples (message : List String) : List (String × String × String) :=
  tri3t ("BOS" :: "BOS" :: (message ++ ["EOS", "EOS"]))

/-- A speaker's trigram table built from a list of messages: the multiset of
all window triples (the Counter in `speaker_trigrams[name]` counts exactly
these). -/
def trigram_table (msgs : List (List String)) : List (String × String × String) :=
  msgs.flatMap trigram_triples

theorem tri3_length : ∀ l : List String, (tri3 l).length = l.length - 2
  | [] => rfl
  | [_] => rfl
  | [_, _] => rfl
  | _ :: b :: c :: rest => by
    simp only [tri3, List.length_cons, tri3_length (b :: c :: rest)]
    omega

theorem tri3t_eq_tri3 : ∀ l : List String,
    tri3 l = (tri3t l).map (fun t => t.1 ++ " " ++ t.2.1 ++ " " ++ t.2.2)
  | [] => rfl
  | [_] => rfl
  | [_, _] => rfl
  | a :: b :: c :: rest => by
    simp only [tri3, tri3t, List.map_cons, tri3t_eq_tri3 (b :: c :: rest)]

/-- C1: the tokenizer does NOT drop empty tokens.  The comprehension's guard
`process_word(word) is not None` never fires (`process_word` always returns a
string), so a pure-punctuation candidate such as `"!!!"` is normalized to the
empty string and retained: the message `"hi !!!"` yields the token list
`["hi", ""]`, whose empty token is counted by every table and whose length 2
includes it.  This contradicts the source's own comment ("remove blanks") and
the claim. -/
theorem tokenize_keeps_empty_token :
    tokenize ("hi !!!".toList) = [['h', 'i'], []] ∧
    (tokenize ("hi !!!".toList)).length = 2 := by
  have h : tokenize ("hi !!!".toList) = [['h', 'i'], []] := by
    simp [tokenize, process_message, removeHttp, subSeps, pythonSplit,
      processWords, keepWord, process_word, pyStrip, contracted_forms, isWordChar]
  exact ⟨h, by rw [h]; rfl⟩

/-- C3 counterexample: for a one-token message the claim predicts
`n + 1 = 2` trigram keys, but `gettrigrams` returns 3. -/
theorem gettrigrams_count_claim_false :
    (gettrigrams ["hello"]).1.length = 3 ∧ (3 : Nat) ≠ 1 + 1 := by
  constructor <;> decide

/-- C3 amended: for a message of `n` tokens, sentinel padding gives a list of
`n + 4` tokens and trigram extraction yields one key per window, i.e. exactly
`n + 2` keys (not `n + 1`), all added to the speaker's table. -/
theorem gettrigrams_count (ms : List String) :
    (gettrigrams ms).1.length = ms.length + 2 := by
  show (tri3 ("BOS" :: "BOS" :: (ms ++ ["EOS", "EOS"]))).length = ms.length + 2
  rw [tri3_length]
  simp

/-- C9 counterexample: `gettrigrams` does not leave the message's token
sequence unchanged; after the call the sequence carries the four sentinel
tokens. -/
theorem gettrigrams_mutates :
    (gettrigrams ["hi"]).2 = ["BOS", "BOS", "hi", "EOS", "EOS"] ∧
    (gettrigrams ["hi"]).2 ≠ ["hi"] := by
  constructor <;> decide

/-- C9 amended: trigram extraction returns the message's trigram keys but
mutates the token sequence in place, prepending two `BOS` and appending two
`EOS` sentinels; the resulting sequence is never equal to the input (it is
four tokens longer), though the scan does not read it again. -/
theorem gettrigrams_mutation (ms : List String) :
    (gettrigrams ms).2 = "BOS" :: "BOS" :: (ms ++ ["EOS", "EOS"]) ∧
    (gettrigrams ms).2 ≠ ms := by
  refine ⟨rfl, fun h => ?_⟩
  have := congrArg List.length h
  simp [gettrigrams] at this
  omega

theorem padded_getLast (ms : List String) :
    ("BOS" :: "BOS" :: (ms ++ ["EOS", "EOS"])).getLast? = some "EOS" := by
  have h : "BOS" :: "BOS" :: (ms ++ ["EOS", "EOS"])
      = ("BOS" :: "BOS" :: (ms ++ ["EOS"])) ++ ["EOS"] := by simp
  rw [h, List.getLast?_concat]

theorem tri3t_closure (l : List String) (hl : l.getLast? = some "EOS") :
    ∀ t ∈ tri3t l, t.2.2 ≠ "EOS" →
      ∃ u ∈ tri3t l, u.1 = t.2.1 ∧ u.2.1 = t.2.2 := by
  match l with
  | [] => intro t ht; simp [tri3t] at ht
  | [_] => intro t ht; simp [tri3t] at ht
  | [_, _] => intro t ht; simp [tri3t] at ht
  | a :: b :: c :: rest =>
    intro t ht hne
    have hexp : tri3t (a :: b :: c :: rest) = (a, b, c) :: tri3t (b :: c :: rest) := rfl
    rw [hexp] at ht
    rcases List.mem_cons.mp ht with h1 | h2
    · subst h1
      cases rest with
      | nil =>
        simp [List.getLast?] at hl
        exact absurd hl (by simpa using hne)
      | cons d rest' =>
        refine ⟨(b, c, d), ?_, rfl, rfl⟩
        rw [hexp]
        exact List.mem_cons_of_mem _ (List.mem_cons_self _ _)
    · have hl' : (b :: c :: rest).getLast? = some "EOS" := by
        rwa [List.getLast?_cons_cons] at hl
      obtain ⟨u, hu, e1, e2⟩ := tri3t_closure (b :: c :: rest) hl' t h2 hne
      exact ⟨u, by rw [hexp]; exact List.mem_cons_of_mem _ hu, e1, e2⟩

/-- C8: in a trigram table built exclusively by sentinel-padded extraction,
every trigram whose third token is not `EOS` has a successor in the same
table whose first two tokens are its last two tokens — the window one step to
the right of the same padded message, which exists because the padded message
ends in `EOS`.  Hence the text generator's dead-end branch (no transition
before reaching `EOS`) cannot be reached from such a table. -/
theorem trigram_table_closure (msgs : List (List String)) :
    ∀ t ∈ trigram_table msgs, t.2.2 ≠ "EOS" →
      ∃ u ∈ trigram_table msgs, u.1 = t.2.1 ∧ u.2.1 = t.2.2 := by
  intro t ht hne
  rw [trigram_table, List.mem_flatMap] at ht
  obtain ⟨ms, hms, htm⟩ := ht
  obtain ⟨u, hu, e1, e2⟩ := tri3t_closure _ (padded_getLast ms) t htm hne
  exact ⟨u, List.mem_flatMap.mpr ⟨ms, hms, hu⟩, e1, e2⟩

theorem trigram_table_closure_witness :
    ("BOS", "BOS", "hi") ∈ trigram_table [["hi"]] ∧ ("hi" : String) ≠ "EOS" ∧
    ∃ u ∈ trigram_table [["hi"]], u.1 = "BOS" ∧ u.2.1 = "hi" :=
  ⟨by decide, by decide,
    trigram_table_closure [["hi"]] ("BOS", "BOS", "hi") (by decide) (by decide)⟩

/-!  Frequency aggregation (lines 322-335 of the source).  An `Event` is one
scanned line's contribution: the speaker it is attributed to and its token
list.  `speaker_words[s]` is a Counter; we represent it by the multiset of
tokens attributed to `s`, so its count of `w` is `List.count w` of that
multiset and the sum of its values is the sum of counts over the distinct
keys. -/

abbrev Event := String × List String

/-- The tokens attributed to speaker `s` over the scan (the multiset
underlying `speaker_words[s]`). -/
def speaker_tokens (evs : List Event) (s : String) : List String :=
  (evs.filter fun e => e.1 == s).flatMap Prod.snd

/-- `sum(counter.values())`: the counts of the distinct keys, summed. -/
def counter_values_sum (l : List String) : Nat :=
  (l.dedup.map fun w => List.count w l).sum

/-- `speaker_totals[speaker] = sum(speaker_words[speaker].values())`. -/
def speaker_totals (evs : List Event) (s : String) : Nat :=
  counter_values_sum (speaker_tokens evs s)

/-- `get_participants`: the distinct speaker names (`list(set(...))`). -/
def participants (evs : List Event) : List String :=
  (evs.map Prod.fst).dedup

/-- `overall_words`: the Counter sum of all per-speaker Counters, as the
count of `w`. -/
def overall_words_count (evs : List Event) (w : String) : Nat :=
  ((participants evs).map fun s => List.count w (speaker_tokens evs s)).sum

def all_tokens (evs : List Event) : List String :=
  evs.flatMap Prod.snd

/-- `overall_total = sum(overall_words.values())`; the Counter's key set is
the set of all observed tokens. -/
def overall_total (evs : List Event) : Nat :=
  ((all_tokens evs).dedup.map fun w => overall_words_count evs w).sum

theorem speaker_totals_eq_length (evs : List Event) (s : String) :
    speaker_totals evs s = (speaker_tokens evs s).length :=
  List.sum_map_count_dedup_eq_length _

theorem mem_all_tokens_of_mem_speaker_tokens {evs : List Event} {s : String}
    {x : String} (h : x ∈ speaker_tokens evs s) : x ∈ all_tokens evs := by
  rw [speaker_tokens, List.mem_flatMap] at h
  obtain ⟨e, he, hx⟩ := h
  exact List.mem_flatMap.mpr ⟨e, (List.mem_filter.mp he).1, hx⟩

theorem sum_indicator_one {α : Type} [DecidableEq α] :
    ∀ D : List α, D.Nodup → ∀ a ∈ D,
      (D.map fun w => if a = w then (1 : Nat) else 0).sum = 1 := by
  intro D
  induction D with
  | nil => intro _ a ha; cases ha
  | cons d D ih =>
    intro hnd a ha
    rw [List.nodup_cons] at hnd
    rcases List.mem_cons.mp ha with h | h
    · subst h
      have hz : (D.map fun w => if a = w then (1 : Nat) else 0).sum = 0 := by
        apply List.sum_eq_zero
        intro x hx
        rw [List.mem_map] at hx
        obtain ⟨w, hw, rfl⟩ := hx
        exact if_neg fun he => hnd.1 (by rw [he]; exact hw)
      simp [hz]
    · have hd : a ≠ d := fun he => hnd.1 (he ▸ h)
      simp only [List.map_cons, List.sum_cons, if_neg hd, ih hnd.2 a h]

theorem sum_map_count_of_subset {α : Type} [DecidableEq α] (D : List α)
    (hD : D.Nodup) : ∀ l : List α, (∀ x ∈ l, x ∈ D) →
      (D.map fun w => List.count w l).sum = l.length := by
  intro l
  induction l with
  | nil => intro _; simp
  | cons a l ih =>
    intro h
    have h1 : ∀ x ∈ l, x ∈ D := fun x hx => h x (List.mem_cons_of_mem _ hx)
    have ha : a ∈ D := h a (List.mem_cons_self _ _)
    have hsplit : (D.map fun w => List.count w (a :: l)).sum
        = (D.map fun w => List.count w l).sum
          + (D.map fun w => if a = w then (1 : Nat) else 0).sum := by
      rw [← List.sum_map_add]
      refine congrArg List.sum (List.map_congr_left fun w _ => ?_)
      rw [List.count_cons]
      simp only [beq_iff_eq]
    rw [hsplit, ih h1, sum_indicator_one D hD a ha]
    simp

theorem list_sum_swap {α β : Type} (f : α → β → Nat) (A : List α) (B : List β) :
    (A.map fun a => (B.map fun b => f a b).sum).sum
      = (B.map fun b => (A.map fun a => f a b).sum).sum := by
  induction A with
  | nil => simp
  | cons a A ih =>
    simp only [List.map_cons, List.sum_cons, ih, ← List.sum_map_add]

/-- C2: after the scan, `overall_total` equals the sum of the per-speaker
totals, each per-speaker total is the sum of that speaker's UnigramTable
values, and the sum of the global UnigramTable's values is `overall_total`. -/
theorem totals_consistent (evs : List Event) :
    overall_total evs = ((participants evs).map fun s => speaker_totals evs s).sum ∧
    (∀ s, speaker_totals evs s = counter_values_sum (speaker_tokens evs s)) ∧
    overall_total evs = ((all_tokens evs).dedup.map fun w => overall_words_count evs w).sum := by
  refine ⟨?_, fun _ => rfl, rfl⟩
  rw [overall_total]
  unfold overall_words_count
  rw [list_sum_swap]
  refine congrArg List.sum (List.map_congr_left fun s _ => ?_)
  rw [speaker_totals_eq_length]
  exact sum_map_count_of_subset _ (List.nodup_dedup _) _
    (fun x hx => List.mem_dedup.mpr (mem_all_tokens_of_mem_speaker_tokens hx))

/-!  Python error values, for fallible operations. -/

inductive PyErr where
  | zeroDivisionError
  | indexError
  | nameError
  | valueError
deriving DecidableEq

/-- Python division: `x / 0` raises `ZeroDivisionError`. -/
def pyDiv (a b : ℚ) : Except PyErr ℚ :=
  if b = 0 then .error .zeroDivisionError else .ok (a / b)

/-- The summary.txt lexical-diversity computation,
`len(speaker_words[speaker].keys()) / speaker_totals[speaker]`. -/
def lexical_diversity (evs : List Event) (s : String) : Except PyErr ℚ :=
  pyDiv ((speaker_tokens evs s).dedup.length : ℚ) (speaker_totals evs s : ℚ)

/-- C4 (divergence): for a speaker with zero observed tokens, the lexical
diversity computation raises `ZeroDivisionError` — it does not return `0.0`
as the claim states. -/
theorem lexical_diversity_zero_tokens (evs : List Event) (s : String)
    (h : speaker_totals evs s = 0) :
    lexical_diversity evs s = .error .zeroDivisionError := by
  unfold lexical_diversity pyDiv
  simp [h]

theorem lexical_diversity_zero_tokens_witness :
    speaker_totals [("alice", [])] "alice" = 0 ∧
    lexical_diversity [("alice", [])] "alice" = .error .zeroDivisionError :=
  ⟨by decide, lexical_diversity_zero_tokens _ _ (by decide)⟩

/-!  Time-series binning.  `initialize_table` makes per-row numpy arrays of
width `ndays + 2` (column 0 holds the row name, columns 1..ndays+1 the days),
and the scan updates column `calculate_days(start_date, timestamp) + 1`.
numpy resolves an integer index `c` into a dimension of width `w` as `c` when
`0 <= c < w`, as `c + w` when `-w <= c < 0`, and raises `IndexError`
otherwise. -/

def numpy_col (width : Nat) (c : Int) : Except PyErr Nat :=
  if (width : Int) ≤ c then .error .indexError
  else if 0 ≤ c then .ok c.toNat
  else if -(width : Int) ≤ c then .ok (c + width).toNat
  else .error .indexError

/-- `calculate_days`, with dates as (proleptic Gregorian) ordinal day
numbers: `datetime.date` subtraction yields the difference in days. -/
def calculate_days (start_date end_date : Int) : Int :=
  end_date - start_date

/-- The column of the time-series tables that a message with the given day
index updates. -/
def timeseries_col (ndays : Nat) (day_index : Int) : Except PyErr Nat :=
  numpy_col (ndays + 2) (day_index + 1)

/-- C5 (divergence): there is no range check on the day index.  A message
dated two days before the transcript's declared first date (`day_index = -2`,
here with `ndays = 5`) is silently wrapped by numpy's negative indexing into
column 6 = `ndays + 1` — the last day's data cell — rather than failing; and
a too-large index raises a plain `IndexError`, not a `DateRangeViolation`. -/
theorem timeseries_col_silent_wrap :
    calculate_days 737790 737788 = -2 ∧
    timeseries_col 5 (-2) = Except.ok 6 ∧
    timeseries_col 5 6 = Except.error PyErr.indexError := by
  exact ⟨rfl, rfl, rfl⟩

/-!  `process_name` (lines 37-41 of the source):

    name = re.sub("^.*\d{2}:\d{2}:\d{2}: ", "", line)
    name = re.sub("^<(\w+\s*\w*\s*\w*)>.*", "\\1", name).strip()

The first substitution is anchored; its greedy `.*` (which cannot cross a
newline) selects the LAST position with a newline-free prefix where the
ten-character pattern `dd:dd:dd:<space>` matches, and the prefix together
with those ten characters is deleted; with no match the line is unchanged.
The second substitution is also anchored: after `<`, the group
`\w+\s*\s*\w*\s*\w*` can consume exactly an alternating sequence of maximal
word-character and whitespace runs that starts with a word run, with at most
three word runs and at most two whitespace runs, and the following character
must be `>`; the trailing `.*` then consumes up to the next newline.  On a
match the whole match is replaced by the group; otherwise the string is
unchanged. -/

/-- The ten-character pattern `\d{2}:\d{2}:\d{2}: ` tested at the head. -/
def timePat (l : List Char) : Bool :=
  match l with
  | a :: b :: c :: d :: e :: f :: g :: p :: q :: r :: _ =>
    a.isDigit && b.isDigit && c == ':' && d.isDigit && e.isDigit && f == ':' &&
    g.isDigit && p.isDigit && q == ':' && r == ' '
  | _ => false

def noNl (l : List Char) : Bool := l.all fun c => c != '\n'

/-- The first regex matches with `.*` of length `k` iff the pattern holds at
`k` and the first `k` characters contain no newline. -/
def timeOk (s : List Char) (k : Nat) : Bool := timePat (s.drop k) && noNl (s.take k)

/-- Greedy search: the largest `k'` with `k' ≤ k` and `timeOk s k'`. -/
def findTime (s : List Char) : Nat → Option Nat
  | 0 => if timeOk s 0 then some 0 else none
  | k + 1 => if timeOk s (k + 1) then some (k + 1) else findTime s k

/-- `re.sub("^.*\d{2}:\d{2}:\d{2}: ", "", line)`. -/
def sub1 (s : List Char) : List Char :=
  match findTime s s.length with
  | some k => s.drop (k + 10)
  | none => s

/-- Consume the maximal alternating word/whitespace runs at the head,
returning the consumed segment, the rest, and the number of word and
whitespace runs consumed. -/
def segScan (s : List Char) : List Char × List Char × Nat × Nat :=
  match s with
  | [] => ([], [], 0, 0)
  | c :: cs =>
    if isWordChar c then
      let out := segScan (cs.dropWhile isWordChar)
      (c :: (cs.takeWhile isWordChar ++ out.1), out.2.1, out.2.2.1 + 1, out.2.2.2)
    else if isSpaceChar c then
      let out := segScan (cs.dropWhile isSpaceChar)
      (c :: (cs.takeWhile isSpaceChar ++ out.1), out.2.1, out.2.2.1, out.2.2.2 + 1)
    else ([], c :: cs, 0, 0)
termination_by s.length
decreasing_by
  · have := (List.dropWhile_sublist (l := cs) isWordChar).length_le
    simp
    omega
  · have := (List.dropWhile_sublist (l := cs) isSpaceChar).length_le
    simp
    omega

/-- The number of maximal runs of `p`-characters in `s`. -/
def runCount (p : Char → Bool) (s : List Char) : Nat :=
  match s with
  | [] => 0
  | c :: cs => if p c then runCount p (cs.dropWhile p) + 1 else runCount p cs
termination_by s.length
decreasing_by
  · have := (List.dropWhile_sublist (l := cs) p).length_le
    simp
    omega
  · simp

/-- The group of `^<(\w+\s*\w*\s*\w*)>`: the alternating runs after `<` must
start with a word run, have at most three word runs and at most two
whitespace runs, and be followed by `>`.  Returns the group text and the text
after the `>`. -/
def nameGroup (l : List Char) : Option (List Char × List Char) :=
  match l with
  | [] => none
  | c :: _ =>
    if isWordChar c then
      let out := segScan l
      match out.2.1 with
      | '>' :: after =>
        if out.2.2.1 ≤ 3 ∧ out.2.2.2 ≤ 2 then some (out.1, after) else none
      | _ => none
    else none

/-- `re.sub("^<(\w+\s*\w*\s*\w*)>.*", "\\1", name)`: on a match the group
replaces everything up to the next newline; otherwise the input is kept. -/
def sub2 (s : List Char) : List Char :=
  match s with
  | c :: rest =>
    if c = '<' then
      match nameGroup rest with
      | some gp => gp.1 ++ gp.2.dropWhile fun d => d != '\n'
      | none => s
    else s
  | [] => s

/-- `process_name(line)`. -/
def process_name (line : List Char) : List Char :=
  pyStrip (sub2 (sub1 line))

/-!  The overall run (pre-scan for the date range, then the main scan).
External library pieces are modelled coarsely where their details do not
affect the claims: `mkDate` checks `1 ≤ day ≤ 31` instead of the exact
per-month bound, and `headerMsg` models `re.sub(".*<.*> (.*)", "\\1", line)`
for lines whose only newline is trailing. -/

def marker : List Char := "[hangouts.py]".toList

/-- `re.match("^\[hangouts.py\]", line) is not None`. -/
def isHeader (line : List Char) : Bool := marker.isPrefixOf line

/-- `line.lower()` (ASCII). -/
def pyLower (l : List Char) : List Char := l.map Char.toLower

/-- The numeric value of a nonempty all-digit string. -/
def digitsVal (l : List Char) : Option Nat :=
  if l ≠ [] ∧ l.all Char.isDigit then
    some (l.foldl (fun n c => n * 10 + (c.toNat - '0'.toNat)) 0)
  else none

/-- `int(s)` on an already-stripped string: optional sign then digits,
`ValueError` otherwise. -/
def pyInt (s : List Char) : Except PyErr Int :=
  match s with
  | '-' :: rest =>
    match digitsVal rest with
    | some n => .ok (-(n : Int))
    | none => .error .valueError
  | '+' :: rest =>
    match digitsVal rest with
    | some n => .ok (n : Int)
    | none => .error .valueError
  | _ =>
    match digitsVal s with
    | some n => .ok (n : Int)
    | none => .error .valueError

structure PyDate where
  year : Int
  month : Int
  day : Int
deriving DecidableEq

/-- `datetime.date(y, m, d)`: `ValueError` outside the valid ranges (the
day's per-month upper bound is coarsened to 31; no claim depends on it). -/
def mkDate (y m d : Int) : Except PyErr PyDate :=
  if 1 ≤ y ∧ y ≤ 9999 ∧ 1 ≤ m ∧ m ≤ 12 ∧ 1 ≤ d ∧ d ≤ 31 then .ok ⟨y, m, d⟩
  else .error .valueError

/-- `list(map(int, line.split(' ')[1].split('-')))` and
`datetime.date(v[0], v[1], v[2])`: `IndexError` when the line has no second
space-separated field or fewer than three dash-separated parts, `ValueError`
from `int` on a non-numeric part. -/
def parseDateFields (line : List Char) : Except PyErr PyDate :=
  match (line.splitOn ' ')[1]? with
  | none => .error .indexError
  | some f => do
    let parts ← (f.splitOn '-').mapM pyInt
    match parts with
    | a :: b :: c :: _ => mkDate a b c
    | _ => .error .indexError

/-- The backward scan `while last[0] != '[': n -= 1`: the last line starting
with `'['`; running past the start of the file (or hitting an empty line,
where `last[0]` itself fails) raises `IndexError`. -/
def lastHeaderishAux : List (List Char) → Except PyErr (List Char)
  | [] => .error .indexError
  | l :: rest =>
    match l.head? with
    | none => .error .indexError
    | some c => if c = '[' then .ok l else lastHeaderishAux rest

/-- The date-range pre-scan (lines 239-256): parse the first line's and the
last `'['`-line's second field as dates. -/
def prescan (lines : List (List Char)) : Except PyErr (PyDate × PyDate) :=
  match lines.head? with
  | none => .error .indexError
  | some first => do
    let last ← lastHeaderishAux lines.reverse
    let s ← parseDateFields first
    let e ← parseDateFields last
    .ok (s, e)

/-- `"> "` at offset `k` with a `'<'` somewhere before it. -/
def gtSpaceAt (s : List Char) (k : Nat) : Bool :=
  (match s.drop k with
   | '>' :: ' ' :: _ => true
   | _ => false) && (s.take k).contains '<'

def findGtSpace (s : List Char) : Nat → Option Nat
  | 0 => if gtSpaceAt s 0 then some 0 else none
  | k + 1 => if gtSpaceAt s (k + 1) then some (k + 1) else findGtSpace s k

/-- `re.sub(".*<.*> (.*)", "\\1", line)` for a line whose only newline is the
trailing one: the greedy dotted prefixes select the last `"> "` preceded by a
`'<'`; the group (the rest of the line before the newline) replaces the
match.  No match leaves the line unchanged. -/
def headerMsg (line : List Char) : List Char :=
  let pre := line.takeWhile fun c => c != '\n'
  match findGtSpace pre pre.length with
  | some j => pre.drop (j + 2) ++ line.dropWhile fun c => c != '\n'
  | none => line

/-- The main scan (lines 265-320), reduced to the attribution of token lists
to speakers: a header line binds the current speaker; any other line is
attributed to the previously bound speaker, and referencing the unbound
`name` before any header raises `NameError`.  (The per-table updates consume
these events; their omission cannot mask the error, which occurs before any
of them on the offending line.) -/
def mainScan (curName : Option (List Char)) (ls : List (List Char)) :
    Except PyErr (List (List Char × List (List Char))) :=
  match ls with
  | [] => .ok []
  | line :: rest =>
    if isHeader line then
      let nm := process_name line
      let msg := processWords (process_message (headerMsg line))
      (mainScan (some nm) rest).map fun acc => (nm, msg) :: acc
    else
      match curName with
      | none => .error .nameError
      | some nm =>
        let msg := processWords (process_message line)
        (mainScan curName rest).map fun acc => (nm, msg) :: acc

/-- The whole processing run: pre-scan, then the main scan over the
lowercased lines.  Statistics exist only in the `ok` result. -/
def run (lines : List (List Char)) :
    Except PyErr ((PyDate × PyDate) × List (List Char × List (List Char))) :=
  match prescan lines with
  | .error e => .error e
  | .ok dates =>
    match mainScan none (lines.map pyLower) with
    | .error e => .error e
    | .ok evs => .ok (dates, evs)

def isErr {α : Type} (e : Except PyErr α) : Bool :=
  match e with
  | .error _ => true
  | .ok _ => false

/-- C10: a transcript whose first line is a continuation line (no
`[hangouts.py]` marker) always fails: either the pre-scan cannot parse the
first line's second field as a date, or the main scan reaches the first line
with no speaker bound and raises `NameError`; no statistics are produced. -/
theorem run_fails_on_continuation_first (first : List Char)
    (rest : List (List Char)) (h : isHeader (pyLower first) = false) :
    isErr (run (first :: rest)) = true := by
  have hm : mainScan none (pyLower first :: rest.map pyLower) = .error .nameError := by
    unfold mainScan
    rw [if_neg (by simp [h])]
  cases hp : prescan (first :: rest) with
  | error e => simp [run, hp, isErr]
  | ok d => simp [run, hp, hm, isErr]

theorem run_fails_on_continuation_first_witness :
    isHeader (pyLower ("hello world".toList)) = false ∧
    isErr (run ["hello world".toList]) = true :=
  ⟨by decide, run_fails_on_continuation_first _ _ (by decide)⟩

/-- C7 counterexample: a speaker name of four whitespace-separated words is
not truncated to its first three words.  The name pattern fails to match (its
group cannot span four word runs), the substitution leaves the string
unchanged, and the extracted "name" is the whole post-timestamp text,
brackets and message included. -/
theorem process_name_four_word_name :
    process_name ("[hangouts.py] 2020-01-01 10:00:00: <a b c d> hi".toList)
      = "<a b c d> hi".toList ∧
    process_name ("[hangouts.py] 2020-01-01 10:00:00: <a b c d> hi".toList)
      ≠ "a b c".toList := by
  have h : process_name ("[hangouts.py] 2020-01-01 10:00:00: <a b c d> hi".toList)
      = "<a b c d> hi".toList := by
    simp [process_name, sub1, findTime, timeOk, timePat, noNl, sub2, nameGroup,
      segScan, pyStrip, isWordChar, isSpaceChar]
  exact ⟨h, by rw [h]; decide⟩

/-!  Tokenizer idempotence.  Every token the tokenizer emits is either a
contracted form or a string of word characters; such tokens contain no
whitespace and no separator characters, and are fixed points of
`process_word`.  Rebuilding the message with `" ".join` and re-tokenizing is
therefore the identity — except that empty tokens vanish in the whitespace
split, and a token containing `http` (which `process_word` can create by
deleting punctuation) is stripped as a URL. -/

/-- Does `p` occur as a contiguous subsequence of the list? -/
def containsSeq (p : List Char) : List Char → Bool
  | [] => p.isPrefixOf []
  | c :: t => p.isPrefixOf (c :: t) || containsSeq p t

/-- `" ".join(tokens)`. -/
def joinSp : List (List Char) → List Char
  | [] => []
  | [t] => t
  | t :: ts => t ++ ' ' :: joinSp ts

theorem wordChar_not_ws {c : Char} (h : isWordChar c = true) :
    c.isWhitespace = false := by
  cases hw : c.isWhitespace
  · rfl
  · exfalso
    have hc : c = ' ' ∨ c = '\t' ∨ c = '\r' ∨ c = '\n' := by
      simp [Char.isWhitespace] at hw
      tauto
    rcases hc with rfl | rfl | rfl | rfl <;> exact absurd h (by decide)

theorem wordChar_not_sep {c : Char} (h : isWordChar c = true) :
    c ≠ '-' ∧ c ≠ '/' ∧ c ≠ '.' := by
  refine ⟨?_, ?_, ?_⟩ <;> rintro rfl <;> exact absurd h (by decide)

theorem contracted_pyStrip : ∀ t ∈ contracted_forms, pyStrip t = t := by decide

theorem contracted_no_ws :
    ∀ t ∈ contracted_forms, ∀ c ∈ t, c.isWhitespace = false := by decide

theorem contracted_no_seps :
    ∀ t ∈ contracted_forms, ∀ c ∈ t, c ≠ '-' ∧ c ≠ '/' ∧ c ≠ '.' := by decide

theorem contracted_has_nonword :
    ∀ t ∈ contracted_forms, ∃ c ∈ t, isWordChar c = false := by decide

theorem dropWhile_eq_self_of_all {p : Char → Bool} {l : List Char}
    (h : ∀ c ∈ l, p c = false) : l.dropWhile p = l := by
  cases l with
  | nil => rfl
  | cons c cs =>
    rw [List.dropWhile_cons, if_neg]
    simp [h c (List.mem_cons_self c cs)]

theorem pyStrip_eq_self {l : List Char} (h : ∀ c ∈ l, c.isWhitespace = false) :
    pyStrip l = l := by
  unfold pyStrip
  rw [dropWhile_eq_self_of_all h,
    dropWhile_eq_self_of_all (fun c hc => h c (List.mem_reverse.mp hc)),
    List.reverse_reverse]

theorem process_word_shape (w : List Char) :
    process_word w ∈ contracted_forms ∨ ∀ c ∈ process_word w, isWordChar c = true := by
  unfold process_word
  by_cases h : pyStrip w ∈ contracted_forms
  · left
    simp [h]
  · right
    simp only [if_neg h]
    intro c hc
    exact (List.mem_filter.mp hc).2

theorem process_word_fix (t : List Char)
    (hsh : t ∈ contracted_forms ∨ ∀ c ∈ t, isWordChar c = true) :
    process_word t = t := by
  rcases hsh with h | h
  · unfold process_word
    simp only [contracted_pyStrip t h, if_pos h]
  · have hnw : ∀ c ∈ t, c.isWhitespace = false := fun c hc => wordChar_not_ws (h c hc)
    have hni : t ∉ contracted_forms := by
      intro hmem
      obtain ⟨c, hc, hcw⟩ := contracted_has_nonword t hmem
      rw [h c hc] at hcw
      cases hcw
    unfold process_word
    simp only [pyStrip_eq_self hnw, if_neg hni]
    exact List.filter_eq_self.mpr h

theorem token_no_ws {t : List Char}
    (hsh : t ∈ contracted_forms ∨ ∀ c ∈ t, isWordChar c = true) :
    ∀ c ∈ t, c.isWhitespace = false := by
  rcases hsh with h | h
  · exact contracted_no_ws t h
  · exact fun c hc => wordChar_not_ws (h c hc)

theorem token_no_seps {t : List Char}
    (hsh : t ∈ contracted_forms ∨ ∀ c ∈ t, isWordChar c = true) :
    ∀ c ∈ t, c ≠ '-' ∧ c ≠ '/' ∧ c ≠ '.' := by
  rcases hsh with h | h
  · exact contracted_no_seps t h
  · exact fun c hc => wordChar_not_sep (h c hc)

theorem mem_joinSp : ∀ ts : List (List Char), ∀ c ∈ joinSp ts, c = ' ' ∨ ∃ t ∈ ts, c ∈ t
  | [] => by intro c hc; cases hc
  | [t] => by
    intro c hc
    exact Or.inr ⟨t, by simp, hc⟩
  | t :: t2 :: ts => by
    intro c hc
    rw [show joinSp (t :: t2 :: ts) = t ++ ' ' :: joinSp (t2 :: ts) from rfl] at hc
    rcases List.mem_append.mp hc with h | h
    · exact Or.inr ⟨t, by simp, h⟩
    · rcases List.mem_cons.mp h with h | h
      · exact Or.inl h
      · rcases mem_joinSp (t2 :: ts) c h with h | ⟨u, hu, hcu⟩
        · exact Or.inl h
        · exact Or.inr ⟨u, List.mem_cons_of_mem _ hu, hcu⟩

theorem pythonSplit_nil : pythonSplit [] = [] := by simp [pythonSplit]

theorem pythonSplit_cons_ws {c : Char} {cs : List Char} (h : c.isWhitespace = true) :
    pythonSplit (c :: cs) = pythonSplit cs := by
  simp [pythonSplit, h]

theorem pythonSplit_cons_nonws {c : Char} {cs : List Char} (h : c.isWhitespace = false) :
    pythonSplit (c :: cs) = (c :: cs.takeWhile fun d => !d.isWhitespace) ::
      pythonSplit (cs.dropWhile fun d => !d.isWhitespace) := by
  simp [pythonSplit, h]

theorem takeWhile_append_of_all {p : Char → Bool} {a b : List Char}
    (h : ∀ c ∈ a, p c = true) : (a ++ b).takeWhile p = a ++ b.takeWhile p := by
  induction a with
  | nil => rfl
  | cons c a ih =>
    rw [List.cons_append, List.takeWhile_cons, if_pos (h c (List.mem_cons_self _ _)),
      ih (fun x hx => h x (List.mem_cons_of_mem _ hx)), List.cons_append]

theorem dropWhile_append_of_all {p : Char → Bool} {a b : List Char}
    (h : ∀ c ∈ a, p c = true) : (a ++ b).dropWhile p = b.dropWhile p := by
  induction a with
  | nil => rfl
  | cons c a ih =>
    rw [List.cons_append, List.dropWhile_cons, if_pos (h c (List.mem_cons_self _ _)),
      ih (fun x hx => h x (List.mem_cons_of_mem _ hx))]

theorem pythonSplit_joinSp :
    ∀ ts : List (List Char), (∀ t ∈ ts, t ≠ [] ∧ ∀ c ∈ t, c.isWhitespace = false) →
      pythonSplit (joinSp ts) = ts
  | [] => fun _ => pythonSplit_nil
  | [t] => fun h => by
    obtain ⟨hne, hnw⟩ := h t (by simp)
    rcases t with _ | ⟨c, cs⟩
    · exact absurd rfl hne
    · have hcs : ∀ d ∈ cs, (!d.isWhitespace) = true := fun d hd => by
        simp [hnw d (List.mem_cons_of_mem _ hd)]
      rw [show joinSp [c :: cs] = c :: cs from rfl,
        pythonSplit_cons_nonws (hnw c (List.mem_cons_self _ _)),
        List.takeWhile_eq_self_iff.mpr hcs,
        List.dropWhile_eq_nil_iff.mpr hcs, pythonSplit_nil]
  | t :: t2 :: ts => fun h => by
    obtain ⟨hne, hnw⟩ := h t (by simp)
    rcases t with _ | ⟨c, cs⟩
    · exact absurd rfl hne
    · have hcs : ∀ d ∈ cs, (!d.isWhitespace) = true := fun d hd => by
        simp [hnw d (List.mem_cons_of_mem _ hd)]
      have hrec := pythonSplit_joinSp (t2 :: ts) (fun u hu => h u (List.mem_cons_of_mem _ hu))
      rw [show joinSp ((c :: cs) :: t2 :: ts) = (c :: cs) ++ ' ' :: joinSp (t2 :: ts) from rfl,
        List.cons_append, pythonSplit_cons_nonws (hnw c (List.mem_cons_self _ _)),
        takeWhile_append_of_all hcs, dropWhile_append_of_all hcs]
      have h1 : (' ' :: joinSp (t2 :: ts)).takeWhile (fun d => !d.isWhitespace) = [] := by
        simp
      have h2 : (' ' :: joinSp (t2 :: ts)).dropWhile (fun d => !d.isWhitespace)
          = ' ' :: joinSp (t2 :: ts) := by
        simp
      rw [h1, h2, List.append_nil, pythonSplit_cons_ws (by simp), hrec]

theorem containsSeq_parts {p : List Char} {c : Char} {t : List Char}
    (h : containsSeq p (c :: t) = false) :
    p.isPrefixOf (c :: t) = false ∧ containsSeq p t = false := by
  have he : containsSeq p (c :: t) = (p.isPrefixOf (c :: t) || containsSeq p t) := rfl
  rw [he] at h
  exact ⟨by cases hb : p.isPrefixOf (c :: t) <;> simp [hb] at h ⊢,
    by cases hb : containsSeq p t <;> simp [hb] at h ⊢⟩

theorem containsSeq_append_sp (p : List Char) (hp : p ≠ [])
    (hpc : ∀ c ∈ p, c.isWhitespace = false) :
    ∀ a rest : List Char, containsSeq p a = false → containsSeq p rest = false →
      containsSeq p (a ++ ' ' :: rest) = false
  | [], rest => fun _ hr => by
    rcases p with _ | ⟨ph, pt⟩
    · exact absurd rfl hp
    · have hpre : (ph :: pt).isPrefixOf (' ' :: rest) = false := by
        cases hb : (ph :: pt).isPrefixOf (' ' :: rest)
        · rfl
        · obtain ⟨u, hu⟩ := List.isPrefixOf_iff_prefix.mp hb
          have hph : ph = ' ' := by
            have := congrArg List.head? hu
            simpa using this
          have := hpc ph (List.mem_cons_self _ _)
          rw [hph] at this
          exact absurd this (by decide)
      rw [List.nil_append]
      have he : containsSeq (ph :: pt) (' ' :: rest)
          = ((ph :: pt).isPrefixOf (' ' :: rest) || containsSeq (ph :: pt) rest) := rfl
      rw [he, hpre, hr]
      rfl
  | a₀ :: a', rest => fun ha hr => by
    obtain ⟨hpre, ha'⟩ := containsSeq_parts ha
    have hrec := containsSeq_append_sp p hp hpc a' rest ha' hr
    have hpre2 : p.isPrefixOf ((a₀ :: a') ++ ' ' :: rest) = false := by
      cases hb : p.isPrefixOf ((a₀ :: a') ++ ' ' :: rest)
      · rfl
      · exfalso
        have hprop := List.isPrefixOf_iff_prefix.mp hb
        rcases le_or_lt p.length (a₀ :: a').length with hle | hlt
        · have htake := List.prefix_iff_eq_take.mp hprop
          rw [List.take_append_eq_append_take, Nat.sub_eq_zero_of_le hle,
            List.take_zero, List.append_nil] at htake
          have : p <+: (a₀ :: a') := List.prefix_iff_eq_take.mpr htake
          rw [List.isPrefixOf_iff_prefix.mpr this] at hpre
          cases hpre
        · obtain ⟨u, hu⟩ := hprop
          have hsp : ' ' ∈ p := by
            have hidx := congrArg (fun l => l[(a₀ :: a').length]?) hu
            simp only at hidx
            rw [List.getElem?_append_left (by omega),
              List.getElem?_append_right (le_refl _), Nat.sub_self] at hidx
            simp at hidx
            exact List.get?_mem (by rw [List.get?_eq_getElem?]; exact hidx)
          have := hpc ' ' hsp
          exact absurd this (by decide)
    rw [List.cons_append]
    have he : containsSeq p (a₀ :: (a' ++ ' ' :: rest))
        = (p.isPrefixOf (a₀ :: (a' ++ ' ' :: rest)) || containsSeq p (a' ++ ' ' :: rest)) := rfl
    rw [he, hrec]
    rw [List.cons_append] at hpre2
    rw [hpre2]
    rfl

theorem containsSeq_joinSp (p : List Char) (hp : p ≠ [])
    (hpc : ∀ c ∈ p, c.isWhitespace = false) :
    ∀ ts : List (List Char), (∀ t ∈ ts, containsSeq p t = false) →
      containsSeq p (joinSp ts) = false
  | [] => fun _ => by
    rcases p with _ | ⟨ph, pt⟩
    · exact absurd rfl hp
    · rfl
  | [t] => fun h => h t (by simp)
  | t :: t2 :: ts => fun h => by
    have hrec := containsSeq_joinSp p hp hpc (t2 :: ts)
      (fun u hu => h u (List.mem_cons_of_mem _ hu))
    rw [show joinSp (t :: t2 :: ts) = t ++ ' ' :: joinSp (t2 :: ts) from rfl]
    exact containsSeq_append_sp p hp hpc t _ (h t (by simp)) hrec

theorem removeHttp_eq_self : ∀ {l : List Char},
    containsSeq ("http".toList) l = false → removeHttp l = l := by
  intro l
  induction l with
  | nil => intro _; simp [removeHttp]
  | cons c cs ih =>
    intro h
    obtain ⟨h1, h2⟩ := containsSeq_parts h
    simp only [removeHttp]
    rw [h1]
    simp [ih h2]

theorem subSeps_eq_self : ∀ {l : List Char},
    (∀ c ∈ l, c ≠ '-' ∧ c ≠ '/' ∧ c ≠ '.') → subSeps l = l := by
  intro l
  induction l with
  | nil => intro _; simp [subSeps]
  | cons c cs ih =>
    intro h
    obtain ⟨h1, h2, h3⟩ := h c (List.mem_cons_self _ _)
    simp [subSeps, h1, h2, h3, ih (fun d hd => h d (List.mem_cons_of_mem _ hd))]

theorem processWords_fixed (ts : List (List Char))
    (h : ∀ t ∈ ts, process_word t = t) : processWords ts = ts := by
  unfold processWords
  rw [List.filter_eq_self.mpr (fun a _ => by simp [keepWord])]
  calc ts.map process_word = ts.map id := List.map_congr_left fun a ha => h a ha
    _ = ts := List.map_id ts

/-- C6 counterexample: tokenization is not idempotent.  `"!!! h.t.t.p"`
tokenizes to `["", "http"]` (the empty token from pure punctuation, and a
token that `process_word` turned into `http` by deleting the dots);
re-tokenizing their whitespace-join drops the empty token in the split and
strips `http` as a URL, leaving `[]`. -/
theorem tokenize_not_idempotent :
    tokenize (joinSp (tokenize ("!!! h.t.t.p".toList)))
      ≠ tokenize ("!!! h.t.t.p".toList) := by
  have h1 : tokenize ("!!! h.t.t.p".toList) = [[], "http".toList] := by
    simp [tokenize, process_message, removeHttp, subSeps, pythonSplit,
      processWords, keepWord, process_word, pyStrip, contracted_forms, isWordChar]
  have h2 : tokenize (joinSp [[], "http".toList]) = [] := by
    simp [tokenize, process_message, removeHttp, subSeps, pythonSplit,
      processWords, joinSp]
  rw [h1, h2]
  decide

/-- C6 amended: re-tokenizing the whitespace-join of a token sequence is the
identity provided no emitted token is empty and no emitted token contains
`http` as a substring; without those provisos re-tokenization can drop
tokens, so idempotence fails in general. -/
theorem tokenize_idempotent_on_clean (s : List Char)
    (h : ∀ t ∈ tokenize s, t ≠ [] ∧ containsSeq ("http".toList) t = false) :
    tokenize (joinSp (tokenize s)) = tokenize s := by
  have hshape : ∀ t ∈ tokenize s,
      t ∈ contracted_forms ∨ ∀ c ∈ t, isWordChar c = true := by
    intro t ht
    have : ∃ w ∈ (process_message s).filter keepWord, process_word w = t :=
      List.mem_map.mp ht
    obtain ⟨w, _, rfl⟩ := this
    exact process_word_shape w
  have hnw : ∀ t ∈ tokenize s, ∀ c ∈ t, c.isWhitespace = false :=
    fun t ht => token_no_ws (hshape t ht)
  have hfix : ∀ t ∈ tokenize s, process_word t = t :=
    fun t ht => process_word_fix t (hshape t ht)
  have hhttp : containsSeq ("http".toList) (joinSp (tokenize s)) = false :=
    containsSeq_joinSp _ (by decide) (by decide) _ (fun t ht => (h t ht).2)
  have e2 : subSeps (joinSp (tokenize s)) = joinSp (tokenize s) := by
    apply subSeps_eq_self
    intro c hc
    rcases mem_joinSp _ c hc with rfl | ⟨t, ht, hct⟩
    · exact ⟨by decide, by decide, by decide⟩
    · exact token_no_seps (hshape t ht) c hct
  have e3 : pythonSplit (joinSp (tokenize s)) = tokenize s :=
    pythonSplit_joinSp _ (fun t ht => ⟨(h t ht).1, hnw t ht⟩)
  show processWords (process_message (joinSp (tokenize s))) = tokenize s
  rw [process_message, removeHttp_eq_self hhttp, e2, e3]
  exact processWords_fixed _ hfix

theorem tokenize_idempotent_on_clean_witness :
    (∀ t ∈ tokenize ("hello world".toList),
      t ≠ [] ∧ containsSeq ("http".toList) t = false) ∧
    tokenize (joinSp (tokenize ("hello world".toList)))
      = tokenize ("hello world".toList) := by
  have hval : tokenize ("hello world".toList) = ["hello".toList, "world".toList] := by
    simp [tokenize, process_message, removeHttp, subSeps, pythonSplit,
      processWords, keepWord, process_word, pyStrip, contracted_forms, isWordChar]
  have hh : ∀ t ∈ tokenize ("hello world".toList),
      t ≠ [] ∧ containsSeq ("http".toList) t = false := by
    rw [hval]
    decide
  exact ⟨hh, tokenize_idempotent_on_clean _ hh⟩

/-!  The name-extraction property of `process_name`. -/

theorem wordChar_ne {c : Char} (h : isWordChar c = true) :
    c ≠ ':' ∧ c ≠ '>' ∧ c ≠ '<' := by
  refine ⟨?_, ?_, ?_⟩ <;> rintro rfl <;> exact absurd h (by decide)

theorem spaceChar_ne {c : Char} (h : isSpaceChar c = true) :
    c ≠ ':' ∧ c ≠ '>' ∧ c ≠ '<' := by
  have hc : c = ' ' ∨ c = '\t' ∨ c = '\r' ∨ c = '\n' := by
    simp [isSpaceChar, Char.isWhitespace] at h
    tauto
  rcases hc with rfl | rfl | rfl | rfl <;>
    exact ⟨by decide, by decide, by decide⟩

theorem wordChar_not_space {c : Char} (h : isWordChar c = true) :
    isSpaceChar c = false :=
  wordChar_not_ws h

theorem spaceChar_not_word {c : Char} (h : isSpaceChar c = true) :
    isWordChar c = false := by
  cases hw : isWordChar c
  · rfl
  · rw [wordChar_not_space hw] at h
    cases h

theorem dropWhile_head_false {p : Char → Bool} :
    ∀ {l : List Char} {c : Char} {t : List Char},
      l.dropWhile p = c :: t → p c = false := by
  intro l
  induction l with
  | nil => intro c t h; cases h
  | cons a l ih =>
    intro c t h
    rw [List.dropWhile_cons] at h
    by_cases ha : p a = true
    · rw [if_pos ha] at h
      exact ih h
    · rw [if_neg ha] at h
      cases h
      simp at ha
      exact ha

theorem runCount_nil (p : Char → Bool) : runCount p [] = 0 := by simp [runCount]

theorem runCount_cons_pos {p : Char → Bool} {c : Char} {cs : List Char}
    (h : p c = true) :
    runCount p (c :: cs) = runCount p (cs.dropWhile p) + 1 := by
  simp only [runCount]
  rw [h]
  simp

theorem runCount_cons_neg {p : Char → Bool} {c : Char} {cs : List Char}
    (h : p c = false) :
    runCount p (c :: cs) = runCount p cs := by
  simp only [runCount]
  rw [h]
  simp

theorem runCount_skip_false {p : Char → Bool} {a b : List Char}
    (h : ∀ c ∈ a, p c = false) : runCount p (a ++ b) = runCount p b := by
  induction a with
  | nil => rfl
  | cons c a ih =>
    rw [List.cons_append, runCount_cons_neg (h c (List.mem_cons_self _ _)),
      ih fun x hx => h x (List.mem_cons_of_mem _ hx)]

theorem dropWhile_congr_on {p q : Char → Bool} :
    ∀ {l : List Char}, (∀ x ∈ l, p x = q x) → l.dropWhile p = l.dropWhile q := by
  intro l
  induction l with
  | nil => intro _; rfl
  | cons c cs ih =>
    intro h
    rw [List.dropWhile_cons, List.dropWhile_cons, h c (List.mem_cons_self _ _),
      ih fun x hx => h x (List.mem_cons_of_mem _ hx)]

theorem segScan_cons_word {c : Char} {cs : List Char} (h : isWordChar c = true) :
    segScan (c :: cs) =
      (c :: (cs.takeWhile isWordChar ++ (segScan (cs.dropWhile isWordChar)).1),
       (segScan (cs.dropWhile isWordChar)).2.1,
       (segScan (cs.dropWhile isWordChar)).2.2.1 + 1,
       (segScan (cs.dropWhile isWordChar)).2.2.2) := by
  conv_lhs => rw [segScan]
  rw [h]
  simp

theorem segScan_cons_space {c : Char} {cs : List Char} (hw : isWordChar c = false)
    (hs : isSpaceChar c = true) :
    segScan (c :: cs) =
      (c :: (cs.takeWhile isSpaceChar ++ (segScan (cs.dropWhile isSpaceChar)).1),
       (segScan (cs.dropWhile isSpaceChar)).2.1,
       (segScan (cs.dropWhile isSpaceChar)).2.2.1,
       (segScan (cs.dropWhile isSpaceChar)).2.2.2 + 1) := by
  conv_lhs => rw [segScan]
  rw [hw, hs]
  simp

theorem segScan_cons_other {c : Char} {cs : List Char} (hw : isWordChar c = false)
    (hs : isSpaceChar c = false) :
    segScan (c :: cs) = ([], c :: cs, 0, 0) := by
  conv_lhs => rw [segScan]
  rw [hw, hs]
  simp


theorem runCount_eq_dropWhile_word {cs : List Char} :
    runCount isSpaceChar cs = runCount isSpaceChar (cs.dropWhile isWordChar) := by
  conv_lhs => rw [← List.takeWhile_append_dropWhile isWordChar cs]
  exact runCount_skip_false fun x hx =>
    wordChar_not_space (List.mem_takeWhile_imp hx)

theorem runCount_eq_dropWhile_space {cs : List Char} :
    runCount isWordChar cs = runCount isWordChar (cs.dropWhile isSpaceChar) := by
  conv_lhs => rw [← List.takeWhile_append_dropWhile isSpaceChar cs]
  exact runCount_skip_false fun x hx =>
    spaceChar_not_word (List.mem_takeWhile_imp hx)

theorem segScan_append : ∀ (seg msg0 : List Char),
    (∀ c ∈ seg, isWordChar c = true ∨ isSpaceChar c = true) →
    segScan (seg ++ '>' :: msg0)
      = (seg, '>' :: msg0, runCount isWordChar seg, runCount isSpaceChar seg)
  | [], msg0 => fun _ => by
    rw [List.nil_append, segScan_cons_other (by decide) (by decide),
      runCount_nil, runCount_nil]
  | c :: cs, msg0 => fun hcls => by
    have hcls' : ∀ x ∈ cs, isWordChar x = true ∨ isSpaceChar x = true :=
      fun x hx => hcls x (List.mem_cons_of_mem _ hx)
    rcases hcls c (List.mem_cons_self _ _) with hw | hs
    · -- head of a word run
      have hsw : isSpaceChar c = false := wordChar_not_space hw
      have htw : ∀ x ∈ cs.takeWhile isWordChar, isWordChar x = true :=
        fun x hx => List.mem_takeWhile_imp hx
      have hrec := segScan_append (cs.dropWhile isWordChar) msg0
        (fun x hx => hcls' x ((List.dropWhile_sublist isWordChar).subset hx))
      have htake : (cs ++ '>' :: msg0).takeWhile isWordChar = cs.takeWhile isWordChar := by
        conv_lhs => rw [← List.takeWhile_append_dropWhile isWordChar cs, List.append_assoc]
        rw [takeWhile_append_of_all htw]
        have h0 : (cs.dropWhile isWordChar ++ '>' :: msg0).takeWhile isWordChar = [] := by
          rcases hrr : cs.dropWhile isWordChar with _ | ⟨d, r'⟩
          · show List.takeWhile isWordChar ('>' :: msg0) = []
            rw [List.takeWhile_cons, if_neg (by decide)]
          · show List.takeWhile isWordChar (d :: (r' ++ '>' :: msg0)) = []
            rw [List.takeWhile_cons, if_neg (by simp [dropWhile_head_false hrr])]
        rw [h0, List.append_nil]
      have hdrop : (cs ++ '>' :: msg0).dropWhile isWordChar
          = cs.dropWhile isWordChar ++ '>' :: msg0 := by
        conv_lhs => rw [← List.takeWhile_append_dropWhile isWordChar cs, List.append_assoc]
        rw [dropWhile_append_of_all htw]
        rcases hrr : cs.dropWhile isWordChar with _ | ⟨d, r'⟩
        · show List.dropWhile isWordChar ('>' :: msg0) = [] ++ '>' :: msg0
          rw [List.nil_append, List.dropWhile_cons, if_neg (by decide)]
        · show List.dropWhile isWordChar (d :: (r' ++ '>' :: msg0))
            = (d :: r') ++ '>' :: msg0
          rw [List.dropWhile_cons, if_neg (by simp [dropWhile_head_false hrr]),
            List.cons_append]
      rw [List.cons_append, segScan_cons_word hw, htake, hdrop, hrec]
      dsimp only
      rw [List.takeWhile_append_dropWhile, runCount_cons_pos hw,
        runCount_cons_neg hsw]
      conv_rhs => rw [runCount_eq_dropWhile_word]
    · -- head of a whitespace run
      have hws : isWordChar c = false := spaceChar_not_word hs
      have hts : ∀ x ∈ cs.takeWhile isSpaceChar, isSpaceChar x = true :=
        fun x hx => List.mem_takeWhile_imp hx
      have hrec := segScan_append (cs.dropWhile isSpaceChar) msg0
        (fun x hx => hcls' x ((List.dropWhile_sublist isSpaceChar).subset hx))
      have htake : (cs ++ '>' :: msg0).takeWhile isSpaceChar = cs.takeWhile isSpaceChar := by
        conv_lhs => rw [← List.takeWhile_append_dropWhile isSpaceChar cs, List.append_assoc]
        rw [takeWhile_append_of_all hts]
        have h0 : (cs.dropWhile isSpaceChar ++ '>' :: msg0).takeWhile isSpaceChar = [] := by
          rcases hrr : cs.dropWhile isSpaceChar with _ | ⟨d, r'⟩
          · show List.takeWhile isSpaceChar ('>' :: msg0) = []
            rw [List.takeWhile_cons, if_neg (by decide)]
          · show List.takeWhile isSpaceChar (d :: (r' ++ '>' :: msg0)) = []
            rw [List.takeWhile_cons, if_neg (by simp [dropWhile_head_false hrr])]
        rw [h0, List.append_nil]
      have hdrop : (cs ++ '>' :: msg0).dropWhile isSpaceChar
          = cs.dropWhile isSpaceChar ++ '>' :: msg0 := by
        conv_lhs => rw [← List.takeWhile_append_dropWhile isSpaceChar cs, List.append_assoc]
        rw [dropWhile_append_of_all hts]
        rcases hrr : cs.dropWhile isSpaceChar with _ | ⟨d, r'⟩
        · show List.dropWhile isSpaceChar ('>' :: msg0) = [] ++ '>' :: msg0
          rw [List.nil_append, List.dropWhile_cons, if_neg (by decide)]
        · show List.dropWhile isSpaceChar (d :: (r' ++ '>' :: msg0))
            = (d :: r') ++ '>' :: msg0
          rw [List.dropWhile_cons, if_neg (by simp [dropWhile_head_false hrr]),
            List.cons_append]
      rw [List.cons_append, segScan_cons_space hws hs, htake, hdrop, hrec]
      dsimp only
      rw [List.takeWhile_append_dropWhile, runCount_cons_pos hs,
        runCount_cons_neg hws]
      conv_rhs => rw [runCount_eq_dropWhile_space]
termination_by seg _ => seg.length
decreasing_by
  all_goals simp only [List.length_cons]
  · exact Nat.lt_succ_of_le ((List.dropWhile_sublist _).length_le)
  · exact Nat.lt_succ_of_le ((List.dropWhile_sublist _).length_le)

theorem runs_word_eq_space_succ : ∀ (n : Nat) (l : List Char), l.length ≤ n →
    (∀ c ∈ l, isWordChar c = true ∨ isSpaceChar c = true) →
    (∃ c0, l.head? = some c0 ∧ isWordChar c0 = true) →
    (∃ cl, l.getLast? = some cl ∧ isWordChar cl = true) →
    runCount isWordChar l = runCount isSpaceChar l + 1 := by
  intro n
  induction n with
  | zero =>
    intro l hl _ h0 _
    obtain ⟨c0, hc0, -⟩ := h0
    rw [List.eq_nil_of_length_eq_zero (Nat.le_zero.mp hl)] at hc0
    cases hc0
  | succ n ih =>
    intro l hl hcls h0 hlast
    obtain ⟨c0, hc0, hw0⟩ := h0
    rcases l with _ | ⟨c, cs⟩
    · cases hc0
    · have hcc : c = c0 := by simpa using hc0
      subst hcc
      obtain ⟨cl, hcl, hwcl⟩ := hlast
      have hW : runCount isWordChar (c :: cs)
          = runCount isWordChar (cs.dropWhile isWordChar) + 1 := runCount_cons_pos hw0
      have hS : runCount isSpaceChar (c :: cs)
          = runCount isSpaceChar (cs.dropWhile isWordChar) := by
        rw [runCount_cons_neg (wordChar_not_space hw0)]
        exact runCount_eq_dropWhile_word
      rcases hrr : cs.dropWhile isWordChar with _ | ⟨d, r'⟩
      · rw [hW, hS, hrr, runCount_nil, runCount_nil]
      · have hd_notword : isWordChar d = false := dropWhile_head_false hrr
        have hd_mem : d ∈ cs :=
          (List.dropWhile_sublist isWordChar).subset (by rw [hrr]; simp)
        have hd_space : isSpaceChar d = true := by
          rcases hcls d (List.mem_cons_of_mem _ hd_mem) with h | h
          · rw [h] at hd_notword; cases hd_notword
          · exact h
        have hS2 : runCount isSpaceChar (d :: r')
            = runCount isSpaceChar (r'.dropWhile isSpaceChar) + 1 := runCount_cons_pos hd_space
        have hW2 : runCount isWordChar (d :: r')
            = runCount isWordChar (r'.dropWhile isSpaceChar) := by
          rw [runCount_cons_neg hd_notword]
          exact runCount_eq_dropWhile_space
        have hsplit : c :: cs = (c :: cs.takeWhile isWordChar) ++ (d :: r') := by
          have h1 : cs = cs.takeWhile isWordChar ++ (d :: r') := by
            conv_lhs => rw [← List.takeWhile_append_dropWhile isWordChar cs]
            rw [hrr]
          rw [List.cons_append, ← h1]
        rcases hr2 : r'.dropWhile isSpaceChar with _ | ⟨e, r2'⟩
        · exfalso
          have hr'space : ∀ x ∈ r', isSpaceChar x = true := by
            intro x hx
            have hre : r' = r'.takeWhile isSpaceChar := by
              conv_lhs => rw [← List.takeWhile_append_dropWhile isSpaceChar r']
              rw [hr2, List.append_nil]
            rw [hre] at hx
            exact List.mem_takeWhile_imp hx
          have hcl_mem : cl ∈ d :: r' := by
            rw [hsplit, List.getLast?_append] at hcl
            rw [List.getLast?_eq_getLast _ (by simp), Option.or_some] at hcl
            rw [← Option.some.inj hcl]
            exact List.getLast_mem _
          have hcl_space : isSpaceChar cl = true := by
            rcases List.mem_cons.mp hcl_mem with rfl | h
            · exact hd_space
            · exact hr'space cl h
          rw [spaceChar_not_word hcl_space] at hwcl
          cases hwcl
        · have he_notspace : isSpaceChar e = false := dropWhile_head_false hr2
          have he_mem_r' : e ∈ r' :=
            (List.dropWhile_sublist isSpaceChar).subset (by rw [hr2]; simp)
          have he_mem : e ∈ c :: cs := by
            have : e ∈ cs := (List.dropWhile_sublist isWordChar).subset
              (by rw [hrr]; exact List.mem_cons_of_mem _ he_mem_r')
            exact List.mem_cons_of_mem _ this
          have he_word : isWordChar e = true := by
            rcases hcls e he_mem with h | h
            · exact h
            · rw [h] at he_notspace; cases he_notspace
          have hlast2 : (e :: r2').getLast? = some cl := by
            have h2 : r' = r'.takeWhile isSpaceChar ++ (e :: r2') := by
              conv_lhs => rw [← List.takeWhile_append_dropWhile isSpaceChar r']
              rw [hr2]
            have h3 : c :: cs = ((c :: cs.takeWhile isWordChar)
                ++ (d :: r'.takeWhile isSpaceChar)) ++ (e :: r2') := by
              rw [hsplit]
              conv_lhs => rw [h2]
              simp
            rw [h3, List.getLast?_append] at hcl
            rw [List.getLast?_eq_getLast (e :: r2') (by simp), Option.or_some] at hcl
            rw [List.getLast?_eq_getLast (e :: r2') (by simp)]
            exact hcl
          have hlen : (e :: r2').length ≤ n := by
            have l1 : (e :: r2').length ≤ r'.length := by
              rw [← hr2]
              exact (List.dropWhile_sublist _).length_le
            have l2 : (d :: r').length ≤ cs.length := by
              rw [← hrr]
              exact (List.dropWhile_sublist _).length_le
            simp only [List.length_cons] at hl l1 l2 ⊢
            omega
          have hmem2 : ∀ x ∈ e :: r2', x ∈ c :: cs := by
            intro x hx
            have hx1 : x ∈ r' := by
              rw [← hr2] at hx
              exact (List.dropWhile_sublist _).subset hx
            have hx2 : x ∈ cs := (List.dropWhile_sublist isWordChar).subset
              (by rw [hrr]; exact List.mem_cons_of_mem _ hx1)
            exact List.mem_cons_of_mem _ hx2
          have hrec := ih (e :: r2') hlen (fun x hx => hcls x (hmem2 x hx))
            ⟨e, rfl, he_word⟩ ⟨cl, hlast2, hwcl⟩
          rw [hW, hS, hrr, hW2, hS2, hr2]
          omega

theorem pythonSplit_length_runCount : ∀ (n : Nat) (l : List Char), l.length ≤ n →
    (∀ c ∈ l, isWordChar c = true ∨ isSpaceChar c = true) →
    (pythonSplit l).length = runCount isWordChar l := by
  intro n
  induction n with
  | zero =>
    intro l hl _
    rw [List.eq_nil_of_length_eq_zero (Nat.le_zero.mp hl), pythonSplit_nil, runCount_nil]
    rfl
  | succ n ih =>
    intro l hl hcls
    rcases l with _ | ⟨c, cs⟩
    · rw [pythonSplit_nil, runCount_nil]
      rfl
    · rcases hcls c (List.mem_cons_self _ _) with hw | hs
      · have hnot : c.isWhitespace = false := wordChar_not_ws hw
        rw [pythonSplit_cons_nonws hnot, runCount_cons_pos hw]
        simp only [List.length_cons]
        have hcong : cs.dropWhile (fun d => !d.isWhitespace) = cs.dropWhile isWordChar := by
          apply dropWhile_congr_on
          intro x hx
          rcases hcls x (List.mem_cons_of_mem _ hx) with h | h
          · rw [wordChar_not_ws h, h]
            rfl
          · rw [show x.isWhitespace = true from h, spaceChar_not_word h]
            rfl
        rw [hcong, ih (cs.dropWhile isWordChar)
          (by
            have := (List.dropWhile_sublist (l := cs) isWordChar).length_le
            simp only [List.length_cons] at hl
            omega)
          (fun x hx => hcls x (List.mem_cons_of_mem _
            ((List.dropWhile_sublist isWordChar).subset hx)))]
      · have hws : c.isWhitespace = true := hs
        rw [pythonSplit_cons_ws hws, runCount_cons_neg (spaceChar_not_word hs)]
        exact ih cs (by simp only [List.length_cons] at hl; omega)
          (fun x hx => hcls x (List.mem_cons_of_mem _ hx))

theorem timePat_spec {l : List Char} (h : timePat l = true) :
    ∃ a b c2 d e f2 g p2 q r rest,
      l = a :: b :: c2 :: d :: e :: f2 :: g :: p2 :: q :: r :: rest ∧
      a.isDigit = true ∧ b.isDigit = true ∧ c2 = ':' ∧ d.isDigit = true ∧
      e.isDigit = true ∧ f2 = ':' ∧ g.isDigit = true ∧ p2.isDigit = true ∧
      q = ':' ∧ r = ' ' := by
  unfold timePat at h
  split at h
  · next a b c2 d e f2 g p2 q r rest =>
    simp only [Bool.and_eq_true, beq_iff_eq] at h
    refine ⟨a, b, c2, d, e, f2, g, p2, q, r, rest, rfl,
      ?_, ?_, ?_, ?_, ?_, ?_, ?_, ?_, ?_, ?_⟩ <;> tauto
  · cases h

theorem timePat_window {l : List Char} (h : timePat l = true) {j : Nat}
    (hj : j < 10) :
    ∃ c, l[j]? = some c ∧ (c.isDigit = true ∨ c = ':' ∨ c = ' ') := by
  obtain ⟨a, b, c2, d, e, f2, g, p2, q, r, rest, heq,
    h1, h2, h3, h4, h5, h6, h7, h8, h9, h10⟩ := timePat_spec h
  subst heq
  interval_cases j
  · exact ⟨a, by simp, Or.inl h1⟩
  · exact ⟨b, by simp, Or.inl h2⟩
  · exact ⟨c2, by simp, Or.inr (Or.inl h3)⟩
  · exact ⟨d, by simp, Or.inl h4⟩
  · exact ⟨e, by simp, Or.inl h5⟩
  · exact ⟨f2, by simp, Or.inr (Or.inl h6)⟩
  · exact ⟨g, by simp, Or.inl h7⟩
  · exact ⟨p2, by simp, Or.inl h8⟩
  · exact ⟨q, by simp, Or.inr (Or.inl h9)⟩
  · exact ⟨r, by simp, Or.inr (Or.inr h10)⟩

theorem timePat_false_of_no_colon {l : List Char} (h : ∀ c ∈ l, c ≠ ':') :
    timePat l = false := by
  cases hb : timePat l
  · rfl
  · obtain ⟨a, b, c2, d, e, f2, g, p2, q, r, rest, heq,
      -, -, h3, -⟩ := timePat_spec hb
    subst h3
    exact absurd rfl (h ':' (by rw [heq]; simp))

/-- The canonical header prefix used to state the name-extraction property
(the marker, a date, a timestamp, colon-space, as in every header line). -/
def headerPre : List Char := "[hangouts.py] 2020-01-01 10:00:00: ".toList

/-- The post-timestamp part of a header line: bracketed name then message. -/
def nameTail (seg msg : List Char) : List Char := '<' :: seg ++ '>' :: msg

/-- A full header line with the canonical prefix. -/
def headerLine (seg msg : List Char) : List Char := headerPre ++ nameTail seg msg

theorem headerPre_length : headerPre.length = 35 := by decide

theorem nameTail_no_colon {seg msg : List Char}
    (hcls : ∀ c ∈ seg, isWordChar c = true ∨ isSpaceChar c = true)
    (hmsg : ∀ c ∈ msg, c ≠ ':') :
    ∀ c ∈ nameTail seg msg, c ≠ ':' := by
  intro c hc
  rcases List.mem_cons.mp hc with rfl | hc
  · decide
  · rcases List.mem_append.mp hc with hc | hc
    · rcases hcls c hc with h | h
      · exact (wordChar_ne h).1
      · exact (spaceChar_ne h).1
    · rcases List.mem_cons.mp hc with rfl | hc
      · decide
      · exact hmsg c hc

theorem timePat_drop_high {seg msg : List Char}
    (hcls : ∀ c ∈ seg, isWordChar c = true ∨ isSpaceChar c = true)
    (hmsg : ∀ c ∈ msg, c ≠ ':') :
    ∀ k, 35 ≤ k → timePat ((headerLine seg msg).drop k) = false := by
  intro k hk
  have hdrop : (headerLine seg msg).drop k = (nameTail seg msg).drop (k - 35) := by
    unfold headerLine
    rw [List.drop_append_eq_append_drop,
      List.drop_eq_nil_of_le (by rw [headerPre_length]; omega),
      List.nil_append, headerPre_length]
  rw [hdrop]
  exact timePat_false_of_no_colon fun c hc =>
    nameTail_no_colon hcls hmsg c (List.drop_subset _ _ hc)

theorem headerLine_at_35 (seg msg : List Char) :
    (headerLine seg msg)[35]? = some '<' := by
  unfold headerLine
  rw [List.getElem?_append_right (by rw [headerPre_length]), headerPre_length]
  simp [nameTail]

theorem timePat_drop_mid {seg msg : List Char} :
    ∀ k, 26 ≤ k → k ≤ 35 → timePat ((headerLine seg msg).drop k) = false := by
  intro k h26 h35
  cases hb : timePat ((headerLine seg msg).drop k)
  · rfl
  · exfalso
    obtain ⟨c, hc, hcp⟩ := timePat_window hb (j := 35 - k) (by omega)
    rw [List.getElem?_drop, show k + (35 - k) = 35 from by omega,
      headerLine_at_35] at hc
    obtain rfl : '<' = c := Option.some.inj hc
    rcases hcp with h | h | h
    · exact absurd h (by decide)
    · exact absurd h (by decide)
    · exact absurd h (by decide)

theorem timeOk_headerLine_25 (seg msg : List Char) :
    timeOk (headerLine seg msg) 25 = true := rfl

theorem findTime_succ (s : List Char) (k : Nat) :
    findTime s (k + 1) = if timeOk s (k + 1) then some (k + 1) else findTime s k := rfl

theorem findTime_headerLine {seg msg : List Char}
    (hcls : ∀ c ∈ seg, isWordChar c = true ∨ isSpaceChar c = true)
    (hmsg : ∀ c ∈ msg, c ≠ ':') :
    ∀ k, 25 ≤ k → findTime (headerLine seg msg) k = some 25 := by
  intro k hk
  induction k, hk using Nat.le_induction with
  | base =>
    have h := findTime_succ (headerLine seg msg) 24
    norm_num at h
    rw [h, if_pos (timeOk_headerLine_25 seg msg)]
  | succ k hk ih =>
    have hfalse : timePat ((headerLine seg msg).drop (k + 1)) = false := by
      rcases le_or_lt (k + 1) 35 with h | h
      · exact timePat_drop_mid (k + 1) (by omega) h
      · exact timePat_drop_high hcls hmsg (k + 1) (by omega)
    rw [findTime_succ, if_neg (by simp [timeOk, hfalse]), ih]

theorem sub1_headerLine {seg msg : List Char}
    (hcls : ∀ c ∈ seg, isWordChar c = true ∨ isSpaceChar c = true)
    (hmsg : ∀ c ∈ msg, c ≠ ':') :
    sub1 (headerLine seg msg) = nameTail seg msg := by
  unfold sub1
  rw [findTime_headerLine hcls hmsg (headerLine seg msg).length
    (by
      unfold headerLine
      rw [List.length_append, headerPre_length]
      omega)]
  show (headerLine seg msg).drop 35 = nameTail seg msg
  unfold headerLine
  rw [List.drop_append_eq_append_drop,
    List.drop_eq_nil_of_le (by rw [headerPre_length]), List.nil_append,
    headerPre_length, Nat.sub_self, List.drop_zero]

theorem pyStrip_of_word_edges {c0 : Char} {segtl : List Char}
    (hw0 : isWordChar c0 = true)
    (hlast : ∃ cl, (c0 :: segtl).getLast? = some cl ∧ isWordChar cl = true) :
    pyStrip (c0 :: segtl) = c0 :: segtl := by
  obtain ⟨cl, hcl, hwcl⟩ := hlast
  unfold pyStrip
  rw [List.dropWhile_cons, if_neg (by simp [wordChar_not_ws hw0])]
  rcases hrev : (c0 :: segtl).reverse with _ | ⟨d, ds⟩
  · simp at hrev
  · have hd : d = cl := by
      have hh := List.head?_reverse (c0 :: segtl)
      rw [hrev, hcl] at hh
      simpa using hh
    rw [List.dropWhile_cons,
      if_neg (by rw [hd]; simp [wordChar_not_ws hwcl]),
      show d :: ds = (c0 :: segtl).reverse from hrev.symm,
      List.reverse_reverse]

theorem nameGroup_append {c0 : Char} {segtl : List Char} (msg : List Char)
    (hw0 : isWordChar c0 = true)
    (hcls : ∀ c ∈ c0 :: segtl, isWordChar c = true ∨ isSpaceChar c = true) :
    nameGroup ((c0 :: segtl) ++ '>' :: msg)
      = if runCount isWordChar (c0 :: segtl) ≤ 3 ∧
            runCount isSpaceChar (c0 :: segtl) ≤ 2
        then some (c0 :: segtl, msg) else none := by
  have hseg := segScan_append (c0 :: segtl) msg hcls
  unfold nameGroup
  rw [List.cons_append] at hseg ⊢
  dsimp only
  rw [if_pos hw0, hseg]
  rfl

/-- C7 amended: on a header line whose bracketed name consists of word
characters and internal whitespace (beginning and ending with a word
character) and whose message part contains no colon or newline, the
extracted name is the bracket content itself when it has at most three
whitespace-separated words; a name of four or more words is NOT truncated to
its first three words — the name pattern fails to match and `process_name`
returns the entire post-timestamp text, brackets and message included,
whitespace-trimmed.  (Lowercasing is performed by the callers, which feed
`process_name` lowercased lines.) -/
theorem process_name_header (c0 : Char) (segtl msg : List Char)
    (hw0 : isWordChar c0 = true)
    (hcls : ∀ c ∈ c0 :: segtl, isWordChar c = true ∨ isSpaceChar c = true)
    (hlast : ∃ cl, (c0 :: segtl).getLast? = some cl ∧ isWordChar cl = true)
    (hmsg : ∀ c ∈ msg, c ≠ ':' ∧ c ≠ '\n') :
    ((pythonSplit (c0 :: segtl)).length ≤ 3 →
      process_name (headerLine (c0 :: segtl) msg) = c0 :: segtl) ∧
    (4 ≤ (pythonSplit (c0 :: segtl)).length →
      process_name (headerLine (c0 :: segtl) msg)
        = pyStrip (nameTail (c0 :: segtl) msg)) := by
  have hsub1 := sub1_headerLine hcls (fun c hc => (hmsg c hc).1)
  have hWs := pythonSplit_length_runCount (c0 :: segtl).length _ le_rfl hcls
  have halt := runs_word_eq_space_succ (c0 :: segtl).length _ le_rfl hcls
    ⟨c0, rfl, hw0⟩ hlast
  have hng := nameGroup_append msg hw0 hcls
  constructor
  · intro h3
    rw [hWs] at h3
    have hcond : runCount isWordChar (c0 :: segtl) ≤ 3 ∧
        runCount isSpaceChar (c0 :: segtl) ≤ 2 := ⟨h3, by omega⟩
    have hsub2 : sub2 (nameTail (c0 :: segtl) msg)
        = (c0 :: segtl) ++ msg.dropWhile (fun c => c != '\n') := by
      show sub2 ('<' :: ((c0 :: segtl) ++ '>' :: msg)) = _
      unfold sub2
      dsimp only
      rw [if_pos rfl, hng, if_pos hcond]
    have hdnil : msg.dropWhile (fun c => c != '\n') = [] :=
      List.dropWhile_eq_nil_iff.mpr fun x hx => by simp [(hmsg x hx).2]
    unfold process_name
    rw [hsub1, hsub2, hdnil, List.append_nil]
    exact pyStrip_of_word_edges hw0 hlast
  · intro h4
    rw [hWs] at h4
    have hcond : ¬(runCount isWordChar (c0 :: segtl) ≤ 3 ∧
        runCount isSpaceChar (c0 :: segtl) ≤ 2) := by
      rintro ⟨ha, -⟩
      omega
    have hsub2 : sub2 (nameTail (c0 :: segtl) msg) = nameTail (c0 :: segtl) msg := by
      show sub2 ('<' :: ((c0 :: segtl) ++ '>' :: msg)) = _
      unfold sub2
      dsimp only
      rw [if_pos rfl, hng, if_neg hcond]
      rfl
    unfold process_name
    rw [hsub1, hsub2]

theorem process_name_header_witness :
    isWordChar 'a' = true ∧
    (∀ c ∈ 'a' :: "nn b".toList, isWordChar c = true ∨ isSpaceChar c = true) ∧
    (∃ cl, ('a' :: "nn b".toList).getLast? = some cl ∧ isWordChar cl = true) ∧
    (∀ c ∈ " hi".toList, c ≠ ':' ∧ c ≠ '\n') ∧
    (((pythonSplit ('a' :: "nn b".toList)).length ≤ 3 →
      process_name (headerLine ('a' :: "nn b".toList) (" hi".toList))
        = 'a' :: "nn b".toList) ∧
    (4 ≤ (pythonSplit ('a' :: "nn b".toList)).length →
      process_name (headerLine ('a' :: "nn b".toList) (" hi".toList))
        = pyStrip (nameTail ('a' :: "nn b".toList) (" hi".toList)))) :=
  ⟨by decide, by decide, ⟨'b', by decide, by decide⟩, by decide,
    process_name_header 'a' ("nn b".toList) (" hi".toList)
      (by decide) (by decide) ⟨'b', by decide, by decide⟩ (by decide)⟩
